import Mathlib

/-!
Verification of the UCT tree node (mcts::UCTreeNode, TreeNode.h) of the
mcts-cpp repository, as a shallow embedding.

Modelling conventions:
* C++ doubles are idealised as exact rationals (ℚ); the literals 1e-6 and
  0.9 are taken at their decimal values.  The UCT score, which applies
  sqrt and log, lives in ℝ (cast from the stored rationals).
* The template parameter N_ACTIONS is the natural number N.
* A URand object (the injected random source) is a deterministic stateful
  generator: a stream of rationals with a cursor. Each operator() call
  reads the value at the cursor and advances it.  The C library rand()
  used by bestAction's internal branch is modelled the same way, as a
  separate stream threaded explicitly; its value stands for rand()/RAND_MAX.
* The reward generator (template parameter Generator, called mdp in the
  source) is likewise a stream: call number i with action a yields
  rew i a, and the cursor advances by one per call.
* The child pointer array vpChildren_i is a list: empty for a leaf (all
  null) and of length N for an internal node.  An assert in the C++
  source is modelled by an Option result (none = assertion failure);
  where the source would dereference a null/out-of-range pointer the
  model stops and returns the state built so far (such branches are
  proved unreachable for well-formed trees).
* expand's `new UCTreeNode()` calls the default constructor; the value a
  default-constructed URand takes is the explicit parameter dRand below.
-/

/-- State of a uniform random number generator: the stream of values it
will produce and the cursor of the next one. -/
structure URand where
  vals : ℕ → ℚ
  pos : ℕ

/-- One operator() call: the produced value and the advanced generator. -/
def URand.next (r : URand) : ℚ × URand := (r.vals r.pos, ⟨r.vals, r.pos + 1⟩)

/-- The generator after k further calls. -/
def URand.advance (r : URand) (k : ℕ) : URand := ⟨r.vals, r.pos + k⟩

/-- The value the (k+1)-th call from now would produce. -/
def URand.peek (r : URand) (k : ℕ) : ℚ := r.vals (r.pos + k)

/-- State of the reward generator `mdp`: call number i with action a
yields `rew i a`. -/
structure MDP where
  rew : ℕ → ℕ → ℚ
  pos : ℕ

/-- One mdp(action) call: the reward and the advanced generator. -/
def MDP.call (m : MDP) (a : ℕ) : ℚ × MDP := (m.rew m.pos a, ⟨m.rew, m.pos + 1⟩)

/-- EPSILON = 1e-6 of TreeNode.h. -/
def EPSILON : ℚ := 1 / 1000000

/-- MAX_ROLLOUT_ITERATIONS = 50 of TreeNode.h. -/
def MAX_ROLLOUT_ITERATIONS : ℕ := 50

/-- DEFAULT_GAMMA = 0.9 of TreeNode.h. -/
def DEFAULT_GAMMA : ℚ := 9 / 10

/-- std::numeric_limits of double ::max(), the exact value of DBL_MAX. -/
def dblMax : ℚ := (2 ^ 53 - 1) * 2 ^ 971

/-- A node of the UCT tree: the fields of mcts::UCTreeNode.  `children`
is the vpChildren_i array: empty when the node is a leaf (all pointers
null), one entry per action when it is internal. -/
inductive UCTreeNode (N : ℕ) : Type where
  | mk (isLeaf : Bool) (nVisits totValue gamma : ℚ) (rand : URand)
      (children : List (UCTreeNode N))

/-- Field isLeaf_i. -/
def UCTreeNode.isLeaf_i {N : ℕ} : UCTreeNode N → Bool
  | .mk l _ _ _ _ _ => l

/-- Field nVisits_i. -/
def UCTreeNode.nVisits_i {N : ℕ} : UCTreeNode N → ℚ
  | .mk _ n _ _ _ _ => n

/-- Field totValue_i. -/
def UCTreeNode.totValue_i {N : ℕ} : UCTreeNode N → ℚ
  | .mk _ _ v _ _ _ => v

/-- Field gamma_i. -/
def UCTreeNode.gamma_i {N : ℕ} : UCTreeNode N → ℚ
  | .mk _ _ _ g _ _ => g

/-- Field rand_i. -/
def UCTreeNode.rand_i {N : ℕ} : UCTreeNode N → URand
  | .mk _ _ _ _ r _ => r

/-- Field vpChildren_i. -/
def UCTreeNode.vpChildren_i {N : ℕ} : UCTreeNode N → List (UCTreeNode N)
  | .mk _ _ _ _ _ cs => cs

/-- The constructor UCTreeNode(inGamma, inRand): a leaf with zero
statistics and all child slots null. -/
def mkLeaf {N : ℕ} (gamma : ℚ) (rand : URand) : UCTreeNode N :=
  .mk true 0 0 gamma rand []

/-- Replace the random source of a node (models a call that only
advances rand_i). -/
def UCTreeNode.setRand {N : ℕ} : UCTreeNode N → URand → UCTreeNode N
  | .mk l n v g _ cs, r => .mk l n v g r cs

/-- Overwrite child slot a (vpChildren_i[a] = c). -/
def UCTreeNode.setChild {N : ℕ} : UCTreeNode N → ℕ → UCTreeNode N → UCTreeNode N
  | .mk l n v g r cs, a, c => .mk l n v g r (cs.set a c)

/-- A placeholder node, returned by childD on an out-of-range index
(which for the C++ source would be undefined behaviour; all uses are
proved in range). -/
def dummyNode (N : ℕ) : UCTreeNode N := .mk true 0 0 DEFAULT_GAMMA ⟨fun _ => 0, 0⟩ []

/-- Read child slot k, total version (dereference of vpChildren_i[k]). -/
def UCTreeNode.childD {N : ℕ} (t : UCTreeNode N) (k : ℕ) : UCTreeNode N :=
  t.vpChildren_i.getD k (dummyNode N)

/-- UCTreeNode::updateStats: one more visit, value added to the total. -/
def UCTreeNode.updateStats {N : ℕ} : UCTreeNode N → ℚ → UCTreeNode N
  | .mk l n v g r cs, value => .mk l (n + 1) (v + value) g r cs

/-- UCTreeNode::expand.  If the node is a leaf, clear the flag and fill
every child slot with `new UCTreeNode()` (default constructor: gamma =
DEFAULT_GAMMA, rand = the default-constructed URand value dRand);
otherwise do nothing. -/
def expand {N : ℕ} (dRand : URand) : UCTreeNode N → UCTreeNode N
  | .mk l n v g r cs =>
    if l then .mk false n v g r (List.replicate N (mkLeaf DEFAULT_GAMMA dRand))
    else .mk l n v g r cs

mutual

/-- UCTreeNode::numOfNodes: 1 for a leaf, else 1 plus the children's
counts. -/
def numOfNodes {N : ℕ} : UCTreeNode N → ℕ
  | .mk l _ _ _ _ cs => if l then 1 else 1 + numOfNodesL cs

/-- Sum of numOfNodes over a child list. -/
def numOfNodesL {N : ℕ} : List (UCTreeNode N) → ℕ
  | [] => 0
  | c :: cs => numOfNodes c + numOfNodesL cs

end

mutual

/-- The structural invariant of the class (documentation of isLeaf_i):
a leaf has every slot null, an internal node has all N slots valid,
recursively. -/
def wfB {N : ℕ} : UCTreeNode N → Bool
  | .mk l _ _ _ _ cs => (if l then cs.isEmpty else cs.length == N) && wfL cs

/-- wfB over a child list. -/
def wfL {N : ℕ} : List (UCTreeNode N) → Bool
  | [] => true
  | c :: cs => wfB c && wfL cs

end

mutual

/-- Every node of the tree carries discount factor g0. -/
def allGammaB {N : ℕ} (g0 : ℚ) : UCTreeNode N → Bool
  | .mk _ _ _ g _ cs => (g == g0) && allGammaL g0 cs

/-- allGammaB over a child list. -/
def allGammaL {N : ℕ} (g0 : ℚ) : List (UCTreeNode N) → Bool
  | [] => true
  | c :: cs => allGammaB g0 c && allGammaL g0 cs

end

/-- The node reached from t by following the given child indices; none
when a slot on the way is missing. -/
def subnode {N : ℕ} : List ℕ → UCTreeNode N → Option (UCTreeNode N)
  | [], t => some t
  | a :: as, t =>
    match t.vpChildren_i[a]? with
    | none => none
    | some c => subnode as c

mutual

/-- The copy constructor UCTreeNode(const UCTreeNode&): copy the scalar
fields; if the source is a leaf stop (the C++ code then leaves the
child-pointer slots untouched, which for a wfB tree means all empty),
otherwise deep-copy every child. -/
def copyCtor {N : ℕ} : UCTreeNode N → UCTreeNode N
  | .mk l n v g r cs => .mk l n v g r (if l then cs else copyL cs)

/-- copyCtor over a child list. -/
def copyL {N : ℕ} : List (UCTreeNode N) → List (UCTreeNode N)
  | [] => []
  | c :: cs => copyCtor c :: copyL cs

end

/-- The selection loop shared by selectAction and bestAction: scan
k = 0, ..., n-1 keeping the last index whose score is >= the best so
far, starting from index 0 and score init (-DBL_MAX in the source). -/
def selScan {α : Type} [LinearOrder α] (f : ℕ → α) (init : α) (n : ℕ) : ℕ × α :=
  (List.range n).foldl (fun s k => if s.2 ≤ f k then (k, f k) else s) (0, init)

/-- The score bestAction computes for child k: exploitation term plus
global-rand tie-break noise (the source's rand()*EPSILON/RAND_MAX,
with g.peek k standing for the value rand()/RAND_MAX of the k-th
rand() call). -/
def bestScore {N : ℕ} (t : UCTreeNode N) (g : URand) (k : ℕ) : ℚ :=
  (t.childD k).totValue_i / ((t.childD k).nVisits_i + EPSILON) + g.peek k * EPSILON

/-- UCTreeNode::bestAction.  On a leaf: one rand_i() call, truncated
times N_ACTIONS.  On an internal node: scan the children with
bestScore, consuming one global rand() value per child; rand_i is not
touched.  Returns the action, the node (with its rand_i state) and the
global rand state. -/
def bestAction {N : ℕ} (t : UCTreeNode N) (g : URand) : ℕ × UCTreeNode N × URand :=
  if t.isLeaf_i then
    ((⌊t.rand_i.peek 0 * N⌋).toNat, t.setRand (t.rand_i.advance 1), g)
  else
    ((selScan (bestScore t g) (-dblMax) N).1, t, g.advance N)

/-- UCTreeNode::vValue: totValue_i / nVisits_i, computed without any
assertion (the some reflects that the call always returns; with zero
visits the C++ division yields an IEEE NaN, which the ℚ model collapses
to 0 -- no theorem below depends on that value). -/
def vValue {N : ℕ} (t : UCTreeNode N) : Option ℚ :=
  some (t.totValue_i / t.nVisits_i)

/-- UCTreeNode::qValue: assert 0 <= action < N_ACTIONS (none on
violation), then the child's vValue; none as well on the null
dereference a leaf would make. -/
def qValue {N : ℕ} (t : UCTreeNode N) (action : ℤ) : Option ℚ :=
  if 0 ≤ action then
    if action < (N : ℤ) then
      match t.vpChildren_i[action.toNat]? with
      | some c => vValue c
      | none => none
    else none
  else none

/-- The UCT score selectAction computes for child k: exploitation term,
exploration bonus sqrt(log(nVisits_i + 1) / (child visits + EPSILON)),
and rand_i()*EPSILON tie-break noise (the k-th call of the node's own
random source). -/
noncomputable def uctScore {N : ℕ} (t : UCTreeNode N) (k : ℕ) : ℝ :=
  ((t.childD k).totValue_i : ℝ) / (((t.childD k).nVisits_i : ℝ) + (EPSILON : ℝ))
    + Real.sqrt (Real.log ((t.nVisits_i : ℝ) + 1) / (((t.childD k).nVisits_i : ℝ) + (EPSILON : ℝ)))
    + (t.rand_i.peek k : ℝ) * (EPSILON : ℝ)

/-- The body of UCTreeNode::selectAction after its assert: the selection
scan over the UCT scores (one rand_i call per child, so rand_i advances
by N), returning the chosen action and the node with its advanced
random source. -/
noncomputable def selectActionCore {N : ℕ} (t : UCTreeNode N) : ℕ × UCTreeNode N :=
  ((selScan (uctScore t) (-(dblMax : ℝ)) N).1, t.setRand (t.rand_i.advance N))

/-- UCTreeNode::selectAction: assert(!isLeaf_i) -- none on a leaf --
then the selection scan. -/
noncomputable def selectAction {N : ℕ} (t : UCTreeNode N) : Option (ℕ × UCTreeNode N) :=
  if t.isLeaf_i then none else some (selectActionCore t)

/-- The loop of UCTreeNode::rollOut: k iterations of
action = rand_i()*N_ACTIONS (truncated), totReward += discount *
mdp(action), discount *= gamma. Returns the total and the advanced
random source. -/
def rollOutLoop (N : ℕ) (gamma : ℚ) : ℕ → URand → MDP → ℚ → ℚ → ℚ × URand
  | 0, r, _, _, tot => (tot, r)
  | k + 1, r, m, disc, tot =>
    let a := (⌊r.next.1 * N⌋).toNat
    let step := m.call a
    rollOutLoop N gamma k r.next.2 step.2 (disc * gamma) (tot + disc * step.1)

/-- UCTreeNode::rollOut, called on the root during iterate: uses the
root's gamma_i and rand_i, and a by-value copy of mdp. -/
def rollOut (N : ℕ) (gamma : ℚ) (r : URand) (m : MDP) : ℚ × URand :=
  rollOutLoop N gamma MAX_ROLLOUT_ITERATIONS r m 1 0

/-- The descent phase of UCTreeNode::iterate: walk the selectAction
path until a leaf, expand it, select once more.  Returns the tree with
the expansion and the rand_i advances applied, the list of
(action, reward) pairs pushed on the visited/rewards stacks (the root's
0.0 placeholder excluded), and the mdp state after those calls.  The
none branch models the null dereference an out-of-range child access
would be; it is unreachable for well-formed trees with N > 0. -/
noncomputable def descend {N : ℕ} (dRand : URand) :
    UCTreeNode N → MDP → UCTreeNode N × List (ℕ × ℚ) × MDP
  | t, m =>
    if t.isLeaf_i then
      let te := expand dRand t
      let a := (selScan (uctScore te) (-(dblMax : ℝ)) N).1
      let te' := te.setRand (te.rand_i.advance N)
      let step := m.call a
      (te', [(a, step.1)], step.2)
    else
      let a := (selScan (uctScore t) (-(dblMax : ℝ)) N).1
      match h : t.vpChildren_i[a]? with
      | none => (t.setRand (t.rand_i.advance N), [], m)
      | some c =>
        let step := m.call a
        let rec2 := descend dRand c step.2
        ((t.setRand (t.rand_i.advance N)).setChild a rec2.1, (a, step.1) :: rec2.2.1, rec2.2.2)
termination_by t _ => sizeOf t
decreasing_by
  have h1 := List.sizeOf_lt_of_mem (List.getElem?_mem h)
  cases t with
  | mk l n v g r cs =>
    simp only [UCTreeNode.vpChildren_i] at h1
    simp only [UCTreeNode.mk.sizeOf_spec]
    omega

/-- The backpropagation phase of UCTreeNode::iterate: follow the
recorded path; at each node recompute value = reward + gamma * value
bottom-up and apply updateStats.  r is the reward pushed for this node
(0.0 for the root), v0 the rollout estimate.  Returns the updated tree
and the value this node was updated with. -/
def backupAux {N : ℕ} (gamma v0 : ℚ) : UCTreeNode N → ℚ → List (ℕ × ℚ) → UCTreeNode N × ℚ
  | t, r, [] => (t.updateStats (r + gamma * v0), r + gamma * v0)
  | t, r, (a, ra) :: rest =>
    match t.vpChildren_i[a]? with
    | none => (t.updateStats (r + gamma * v0), r + gamma * v0)
    | some c =>
      let rec2 := backupAux gamma v0 c ra rest
      ((t.setChild a rec2.1).updateStats (r + gamma * rec2.2), r + gamma * rec2.2)

/-- The value v_i = r_i + gamma * v_(i+1) the unwinding loop computes
when the rewards still on the stack are rs and the value accumulated
below them is v0. -/
def backVal (gamma v0 : ℚ) (rs : List ℚ) : ℚ :=
  rs.foldr (fun r v => r + gamma * v) v0

/-- UCTreeNode::iterate on the node taken as root: descend (selection +
expansion), rollOut on the root (advancing the root's rand_i), then
backpropagation with the root's gamma_i and the 0.0 root reward
placeholder.  Returns the updated tree and the mdp state after the
descent's reward queries. -/
noncomputable def iterate {N : ℕ} (dRand : URand) (t : UCTreeNode N) (m : MDP) :
    UCTreeNode N × MDP :=
  ((backupAux (descend dRand t m).1.gamma_i
      (rollOut N (descend dRand t m).1.gamma_i (descend dRand t m).1.rand_i
        (descend dRand t m).2.2).1
      ((descend dRand t m).1.setRand
        (rollOut N (descend dRand t m).1.gamma_i (descend dRand t m).1.rand_i
          (descend dRand t m).2.2).2)
      0 (descend dRand t m).2.1).1,
    (descend dRand t m).2.2)

/-- k successive calls of iterate, the reward stream threaded through. -/
noncomputable def iterateK {N : ℕ} (dRand : URand) :
    ℕ → UCTreeNode N → MDP → UCTreeNode N × MDP
  | 0, t, m => (t, m)
  | k + 1, t, m => iterateK dRand k (iterate dRand t m).1 (iterate dRand t m).2

/-- A zero random stream at cursor 0 (concrete input for the theorems
below). -/
def urand0 : URand := ⟨fun _ => 0, 0⟩

/-- A zero reward stream (concrete input for the theorems below). -/
def mdp0 : MDP := ⟨fun _ _ => 0, 0⟩

/-- A concrete internal node with two never-visited leaf children
(concrete input for the theorems below). -/
def twoLeafNode : UCTreeNode 2 :=
  .mk false 0 0 DEFAULT_GAMMA urand0 [mkLeaf DEFAULT_GAMMA urand0, mkLeaf DEFAULT_GAMMA urand0]

/-- A global rand() stream whose first value is 1 and the rest 0
(concrete input for the theorems below). -/
def urandOne : URand := ⟨fun i => if i = 0 then 1 else 0, 0⟩

@[simp] theorem isLeaf_mk {N : ℕ} (l : Bool) (n v g : ℚ) (r : URand) (cs : List (UCTreeNode N)) :
    (UCTreeNode.mk l n v g r cs).isLeaf_i = l := rfl

@[simp] theorem nVisits_mk {N : ℕ} (l : Bool) (n v g : ℚ) (r : URand) (cs : List (UCTreeNode N)) :
    (UCTreeNode.mk l n v g r cs).nVisits_i = n := rfl

@[simp] theorem totValue_mk {N : ℕ} (l : Bool) (n v g : ℚ) (r : URand) (cs : List (UCTreeNode N)) :
    (UCTreeNode.mk l n v g r cs).totValue_i = v := rfl

@[simp] theorem gamma_mk {N : ℕ} (l : Bool) (n v g : ℚ) (r : URand) (cs : List (UCTreeNode N)) :
    (UCTreeNode.mk l n v g r cs).gamma_i = g := rfl

@[simp] theorem rand_mk {N : ℕ} (l : Bool) (n v g : ℚ) (r : URand) (cs : List (UCTreeNode N)) :
    (UCTreeNode.mk l n v g r cs).rand_i = r := rfl

@[simp] theorem children_mk {N : ℕ} (l : Bool) (n v g : ℚ) (r : URand) (cs : List (UCTreeNode N)) :
    (UCTreeNode.mk l n v g r cs).vpChildren_i = cs := rfl

@[simp] theorem isLeaf_setRand {N : ℕ} (t : UCTreeNode N) (r : URand) :
    (t.setRand r).isLeaf_i = t.isLeaf_i := by cases t; rfl

@[simp] theorem nVisits_setRand {N : ℕ} (t : UCTreeNode N) (r : URand) :
    (t.setRand r).nVisits_i = t.nVisits_i := by cases t; rfl

@[simp] theorem totValue_setRand {N : ℕ} (t : UCTreeNode N) (r : URand) :
    (t.setRand r).totValue_i = t.totValue_i := by cases t; rfl

@[simp] theorem gamma_setRand {N : ℕ} (t : UCTreeNode N) (r : URand) :
    (t.setRand r).gamma_i = t.gamma_i := by cases t; rfl

@[simp] theorem rand_setRand {N : ℕ} (t : UCTreeNode N) (r : URand) :
    (t.setRand r).rand_i = r := by cases t; rfl

@[simp] theorem children_setRand {N : ℕ} (t : UCTreeNode N) (r : URand) :
    (t.setRand r).vpChildren_i = t.vpChildren_i := by cases t; rfl

@[simp] theorem isLeaf_setChild {N : ℕ} (t : UCTreeNode N) (a : ℕ) (c : UCTreeNode N) :
    (t.setChild a c).isLeaf_i = t.isLeaf_i := by cases t; rfl

@[simp] theorem nVisits_setChild {N : ℕ} (t : UCTreeNode N) (a : ℕ) (c : UCTreeNode N) :
    (t.setChild a c).nVisits_i = t.nVisits_i := by cases t; rfl

@[simp] theorem totValue_setChild {N : ℕ} (t : UCTreeNode N) (a : ℕ) (c : UCTreeNode N) :
    (t.setChild a c).totValue_i = t.totValue_i := by cases t; rfl

@[simp] theorem gamma_setChild {N : ℕ} (t : UCTreeNode N) (a : ℕ) (c : UCTreeNode N) :
    (t.setChild a c).gamma_i = t.gamma_i := by cases t; rfl

@[simp] theorem rand_setChild {N : ℕ} (t : UCTreeNode N) (a : ℕ) (c : UCTreeNode N) :
    (t.setChild a c).rand_i = t.rand_i := by cases t; rfl

@[simp] theorem children_setChild {N : ℕ} (t : UCTreeNode N) (a : ℕ) (c : UCTreeNode N) :
    (t.setChild a c).vpChildren_i = t.vpChildren_i.set a c := by cases t; rfl

@[simp] theorem isLeaf_updateStats {N : ℕ} (t : UCTreeNode N) (v : ℚ) :
    (t.updateStats v).isLeaf_i = t.isLeaf_i := by cases t; rfl

@[simp] theorem nVisits_updateStats {N : ℕ} (t : UCTreeNode N) (v : ℚ) :
    (t.updateStats v).nVisits_i = t.nVisits_i + 1 := by cases t; rfl

@[simp] theorem totValue_updateStats {N : ℕ} (t : UCTreeNode N) (v : ℚ) :
    (t.updateStats v).totValue_i = t.totValue_i + v := by cases t; rfl

@[simp] theorem gamma_updateStats {N : ℕ} (t : UCTreeNode N) (v : ℚ) :
    (t.updateStats v).gamma_i = t.gamma_i := by cases t; rfl

@[simp] theorem rand_updateStats {N : ℕ} (t : UCTreeNode N) (v : ℚ) :
    (t.updateStats v).rand_i = t.rand_i := by cases t; rfl

@[simp] theorem children_updateStats {N : ℕ} (t : UCTreeNode N) (v : ℚ) :
    (t.updateStats v).vpChildren_i = t.vpChildren_i := by cases t; rfl

@[simp] theorem subnode_nil {N : ℕ} (t : UCTreeNode N) : subnode [] t = some t := rfl

theorem subnode_cons {N : ℕ} (a : ℕ) (as : List ℕ) (t : UCTreeNode N) :
    subnode (a :: as) t = (t.vpChildren_i[a]?).bind (fun c => subnode as c) := by
  cases h : t.vpChildren_i[a]? <;> simp [subnode, h]

theorem subnode_setRand {N : ℕ} (as : List ℕ) (t : UCTreeNode N) (r : URand) (h : as ≠ []) :
    subnode as (t.setRand r) = subnode as t := by
  cases as with
  | nil => exact absurd rfl h
  | cons a as => rw [subnode_cons, subnode_cons, children_setRand]

theorem selScan_succ {α : Type} [LinearOrder α] (f : ℕ → α) (init : α) (n : ℕ) :
    selScan f init (n + 1) =
      (if (selScan f init n).2 ≤ f n then (n, f n) else selScan f init n) := by
  simp only [selScan, List.range_succ, List.foldl_append, List.foldl_cons, List.foldl_nil]

@[simp] theorem selScan_zero {α : Type} [LinearOrder α] (f : ℕ → α) (init : α) :
    selScan f init 0 = (0, init) := rfl

theorem selScan_fst_lt {α : Type} [LinearOrder α] (f : ℕ → α) (init : α) (n : ℕ)
    (hn : 0 < n) : (selScan f init n).1 < n := by
  induction n with
  | zero => omega
  | succ n ih =>
    rw [selScan_succ]
    by_cases hc : (selScan f init n).2 ≤ f n
    · simp [hc]
    · rcases Nat.eq_zero_or_pos n with h0 | hpos
      · subst h0; rw [if_neg hc]; simp
      · rw [if_neg hc]
        exact Nat.lt_succ_of_lt (ih hpos)

theorem selScan_spec {α : Type} [LinearOrder α] (f : ℕ → α) (init : α) (n : ℕ)
    (hn : 0 < n) (hb : ∀ k, k < n → init ≤ f k) :
    (selScan f init n).2 = f (selScan f init n).1 ∧
    (∀ i, i < n → f i ≤ f (selScan f init n).1) ∧
    (∀ i, (selScan f init n).1 < i → i < n → f i < f (selScan f init n).1) := by
  induction n with
  | zero => omega
  | succ n ih =>
    rcases Nat.eq_zero_or_pos n with h0 | hpos
    · subst h0
      rw [selScan_succ, selScan_zero, if_pos (hb 0 (by omega) : init ≤ f 0)]
      refine ⟨rfl, ?_, ?_⟩
      · intro i hi
        have : i = 0 := by omega
        subst this; exact le_refl _
      · intro i h1 h2; omega
    · obtain ⟨h1, h2, h3⟩ := ih hpos (fun k hk => hb k (by omega))
      have hlt := selScan_fst_lt f init n hpos
      rw [selScan_succ]
      by_cases hc : (selScan f init n).2 ≤ f n
      · rw [if_pos hc]
        rw [h1] at hc
        refine ⟨rfl, ?_, ?_⟩
        · intro i hi
          rcases Nat.lt_succ_iff_lt_or_eq.mp hi with h | h
          · exact le_trans (h2 i h) hc
          · subst h; exact le_refl _
        · intro i hgt hi; omega
      · rw [if_neg hc]
        rw [h1] at hc
        push_neg at hc
        refine ⟨h1, ?_, ?_⟩
        · intro i hi
          rcases Nat.lt_succ_iff_lt_or_eq.mp hi with h | h
          · exact h2 i h
          · subst h; exact le_of_lt hc
        · intro i hgt hi
          rcases Nat.lt_succ_iff_lt_or_eq.mp hi with h | h
          · exact h3 i hgt h
          · subst h; exact hc

theorem wfB_length {N : ℕ} (t : UCTreeNode N) (hwf : wfB t = true)
    (hl : t.isLeaf_i = false) : t.vpChildren_i.length = N := by
  cases t with
  | mk l n v g r cs =>
    simp only [isLeaf_mk] at hl
    subst hl
    simp [wfB] at hwf
    exact hwf.1

theorem wfB_leaf_children {N : ℕ} (t : UCTreeNode N) (hwf : wfB t = true)
    (hl : t.isLeaf_i = true) : t.vpChildren_i = [] := by
  cases t with
  | mk l n v g r cs =>
    simp only [isLeaf_mk] at hl
    subst hl
    simp [wfB] at hwf
    exact hwf.1

theorem wfL_mem {N : ℕ} (cs : List (UCTreeNode N)) (c : UCTreeNode N)
    (hwf : wfL cs = true) (hm : c ∈ cs) : wfB c = true := by
  induction cs with
  | nil => cases hm
  | cons d ds ih =>
    simp [wfL] at hwf
    rcases List.mem_cons.mp hm with h | h
    · subst h; exact hwf.1
    · exact ih hwf.2 h

theorem wfB_children {N : ℕ} (t : UCTreeNode N) (hwf : wfB t = true) :
    wfL t.vpChildren_i = true := by
  cases t with
  | mk l n v g r cs =>
    simp [wfB] at hwf
    simpa using hwf.2

/-- C8: expand is idempotent: on a leaf the one call allocates exactly
N fresh leaf children (one per action) and marks the node internal,
leaving its statistics, discount factor and random source alone; on an
already-internal node it is a no-op, and a second expand never changes
the result of the first. -/
theorem expand_idempotent {N : ℕ} (dRand : URand) (t : UCTreeNode N) :
    (t.isLeaf_i = true →
      (expand dRand t).isLeaf_i = false ∧
      (expand dRand t).vpChildren_i = List.replicate N (mkLeaf DEFAULT_GAMMA dRand) ∧
      (expand dRand t).nVisits_i = t.nVisits_i ∧
      (expand dRand t).totValue_i = t.totValue_i ∧
      (expand dRand t).gamma_i = t.gamma_i ∧
      (expand dRand t).rand_i = t.rand_i) ∧
    (t.isLeaf_i = false → expand dRand t = t) ∧
    expand dRand (expand dRand t) = expand dRand t := by
  cases t with
  | mk l n v g r cs => cases l <;> simp [expand]

/-- C10 counterexample: on a freshly constructed node, whose visit
count is zero, vValue returns a value instead of failing an assertion
(the source computes totValue_i/nVisits_i with no assert). -/
theorem vValue_unvisited_returns :
    (mkLeaf (N := 2) DEFAULT_GAMMA urand0).nVisits_i = 0 ∧
    vValue (mkLeaf (N := 2) DEFAULT_GAMMA urand0) ≠ none := by
  exact ⟨rfl, by simp [vValue]⟩

/-- C10 amended: qValue fails its assertions exactly on an
out-of-range action; for an in-range action of a well-formed internal
node it returns the child's totValue_i/nVisits_i without checking the
child's visit count; vValue always returns totValue_i/nVisits_i with
no check at all. -/
theorem qValue_vValue_spec {N : ℕ} (t : UCTreeNode N) (action : ℤ)
    (hwf : wfB t = true) :
    ((action < 0 ∨ (N : ℤ) ≤ action) → qValue t action = none) ∧
    (t.isLeaf_i = false → 0 ≤ action → action < (N : ℤ) →
      ∃ c, t.vpChildren_i[action.toNat]? = some c ∧
        qValue t action = some (c.totValue_i / c.nVisits_i)) ∧
    vValue t = some (t.totValue_i / t.nVisits_i) := by
  refine ⟨?_, ?_, rfl⟩
  · intro h
    rcases h with h | h
    · rw [qValue, if_neg (by omega)]
    · rw [qValue]
      by_cases h0 : 0 ≤ action
      · rw [if_pos h0, if_neg (by omega)]
      · rw [if_neg h0]
  · intro hl h0 hN
    have hlen := wfB_length t hwf hl
    have hid : action.toNat < t.vpChildren_i.length := by omega
    refine ⟨t.vpChildren_i[action.toNat], List.getElem?_eq_getElem hid, ?_⟩
    rw [qValue, if_pos h0, if_pos hN]
    simp only [List.getElem?_eq_getElem hid]
    rfl

/-- C9 counterexample: the same internal node, with the same injected
random source, asked for its best action twice while the ambient
global rand() stream differs, answers two different actions: the
internal branch of bestAction reads the global C library generator,
not the node's rand_i. -/
theorem bestAction_global_rand_cex :
    (bestAction twoLeafNode urand0).1 ≠ (bestAction twoLeafNode urandOne).1 := by
  have hr : List.range 2 = [0, 1] := rfl
  have hb0 : bestScore twoLeafNode urand0 0 = 0 := by
    norm_num [bestScore, twoLeafNode, UCTreeNode.childD, URand.peek, urand0, EPSILON, mkLeaf]
  have hb1 : bestScore twoLeafNode urand0 1 = 0 := by
    norm_num [bestScore, twoLeafNode, UCTreeNode.childD, URand.peek, urand0, EPSILON, mkLeaf]
  have hc0 : bestScore twoLeafNode urandOne 0 = EPSILON := by
    norm_num [bestScore, twoLeafNode, UCTreeNode.childD, URand.peek, urandOne, mkLeaf]
  have hc1 : bestScore twoLeafNode urandOne 1 = 0 := by
    norm_num [bestScore, twoLeafNode, UCTreeNode.childD, URand.peek, urandOne, EPSILON, mkLeaf]
  have e1 : (bestAction twoLeafNode urand0).1 = 1 := by
    rw [bestAction, if_neg (by decide : ¬twoLeafNode.isLeaf_i = true)]
    rw [selScan, hr]
    simp only [List.foldl_cons, List.foldl_nil]
    rw [hb0, hb1]
    norm_num [dblMax, EPSILON]
  have e2 : (bestAction twoLeafNode urandOne).1 = 0 := by
    rw [bestAction, if_neg (by decide : ¬twoLeafNode.isLeaf_i = true)]
    rw [selScan, hr]
    simp only [List.foldl_cons, List.foldl_nil]
    rw [hc0, hc1]
    norm_num [dblMax, EPSILON]
  rw [e1, e2]
  decide

/-- C9 amended: which state bestAction actually reads.  On a leaf the
answer depends only on the node (its injected rand_i), not on the
global rand() stream; on an internal node it depends only on the
children and the global rand() stream, not on the injected rand_i. -/
theorem bestAction_state_dependence {N : ℕ} (t : UCTreeNode N) (g g' r r' : URand) :
    (t.isLeaf_i = true → (bestAction t g).1 = (bestAction t g').1) ∧
    (t.isLeaf_i = false →
      (bestAction (t.setRand r) g).1 = (bestAction (t.setRand r') g).1) := by
  constructor
  · intro h
    simp [bestAction, h]
  · intro h
    have hs : ∀ r0 : URand, bestScore (t.setRand r0) g = bestScore t g := by
      intro r0
      funext k
      simp [bestScore, UCTreeNode.childD]
    simp [bestAction, h, hs]

/-- C7: bestAction on a leaf returns an action in [0, N) and neither
reads nor modifies any child slot or statistic; on an internal node it
scans the exploitation-only scores bestScore (no exploration bonus) in
index order and returns the last index attaining the maximum, exact
ties going to the later index. -/
theorem bestAction_spec {N : ℕ} (t : UCTreeNode N) (g : URand) (hN : 0 < N)
    (hv : 0 ≤ t.rand_i.peek 0 ∧ t.rand_i.peek 0 < 1)
    (hb : ∀ k, k < N → -dblMax ≤ bestScore t g k) :
    (t.isLeaf_i = true →
      (bestAction t g).1 < N ∧
      (bestAction t g).2.1.vpChildren_i = t.vpChildren_i ∧
      (bestAction t g).2.1.nVisits_i = t.nVisits_i ∧
      (bestAction t g).2.1.totValue_i = t.totValue_i) ∧
    (t.isLeaf_i = false →
      (bestAction t g).1 < N ∧
      (∀ i, i < N → bestScore t g i ≤ bestScore t g (bestAction t g).1) ∧
      (∀ i, (bestAction t g).1 < i → i < N →
        bestScore t g i < bestScore t g (bestAction t g).1)) := by
  constructor
  · intro h
    have h2 : t.rand_i.peek 0 * N < N := by
      calc t.rand_i.peek 0 * N < 1 * N := by
            apply mul_lt_mul_of_pos_right hv.2
            exact_mod_cast hN
        _ = N := one_mul _
    have h3 : ⌊t.rand_i.peek 0 * (N : ℚ)⌋ < (N : ℤ) := by
      rw [Int.floor_lt]
      exact_mod_cast h2
    simp only [bestAction, if_pos h]
    refine ⟨by omega, by simp, by simp, by simp⟩
  · intro h
    simp only [bestAction, if_neg (by rw [h]; simp : ¬t.isLeaf_i = true)]
    obtain ⟨_, h2, h3⟩ := selScan_spec (bestScore t g) (-dblMax) N hN hb
    exact ⟨selScan_fst_lt _ _ N hN, h2, h3⟩

/-- C4: selectAction on a leaf is the failed assert (none); on an
internal node it scans the UCT scores uctScore (exploitation term,
exploration bonus, rand_i tie-break noise) in index order and returns
the last index attaining the maximum together with the node whose
random source advanced by the N tie-break draws; exact ties go to the
later index. -/
theorem selectAction_uct_spec {N : ℕ} (t : UCTreeNode N) (hN : 0 < N)
    (hb : ∀ k, k < N → -(dblMax : ℚ) ≤ uctScore t k) :
    (t.isLeaf_i = true → selectAction t = none) ∧
    (t.isLeaf_i = false →
      ∃ j, selectAction t = some (j, t.setRand (t.rand_i.advance N)) ∧
        j < N ∧
        (∀ i, i < N → uctScore t i ≤ uctScore t j) ∧
        (∀ i, j < i → i < N → uctScore t i < uctScore t j)) := by
  constructor
  · intro h
    simp [selectAction, h]
  · intro h
    have hb2 : ∀ k, k < N → (-(dblMax : ℚ) : ℝ) ≤ uctScore t k := by
      intro k hk
      exact hb k hk
    obtain ⟨_, h2, h3⟩ := selScan_spec (uctScore t) (-(dblMax : ℚ) : ℝ) N hN hb2
    refine ⟨(selScan (uctScore t) (-(dblMax : ℚ) : ℝ) N).1, ?_, ?_, h2, h3⟩
    · simp [selectAction, h, selectActionCore]
    · exact selScan_fst_lt _ _ N hN

theorem qValue_vValue_spec_w :
    (((0 : ℤ) < 0 ∨ ((2 : ℕ) : ℤ) ≤ (0 : ℤ)) → qValue twoLeafNode 0 = none) ∧
    (twoLeafNode.isLeaf_i = false → (0 : ℤ) ≤ (0 : ℤ) → (0 : ℤ) < ((2 : ℕ) : ℤ) →
      ∃ c, twoLeafNode.vpChildren_i[(0 : ℤ).toNat]? = some c ∧
        qValue twoLeafNode 0 = some (c.totValue_i / c.nVisits_i)) ∧
    vValue twoLeafNode = some (twoLeafNode.totValue_i / twoLeafNode.nVisits_i) :=
  qValue_vValue_spec twoLeafNode 0 (by decide)

theorem bestAction_spec_w :
    ((mkLeaf (N := 2) DEFAULT_GAMMA urand0).isLeaf_i = true →
      (bestAction (mkLeaf (N := 2) DEFAULT_GAMMA urand0) urand0).1 < 2 ∧
      (bestAction (mkLeaf (N := 2) DEFAULT_GAMMA urand0) urand0).2.1.vpChildren_i =
        (mkLeaf (N := 2) DEFAULT_GAMMA urand0).vpChildren_i ∧
      (bestAction (mkLeaf (N := 2) DEFAULT_GAMMA urand0) urand0).2.1.nVisits_i =
        (mkLeaf (N := 2) DEFAULT_GAMMA urand0).nVisits_i ∧
      (bestAction (mkLeaf (N := 2) DEFAULT_GAMMA urand0) urand0).2.1.totValue_i =
        (mkLeaf (N := 2) DEFAULT_GAMMA urand0).totValue_i) ∧
    ((mkLeaf (N := 2) DEFAULT_GAMMA urand0).isLeaf_i = false →
      (bestAction (mkLeaf (N := 2) DEFAULT_GAMMA urand0) urand0).1 < 2 ∧
      (∀ i, i < 2 →
        bestScore (mkLeaf (N := 2) DEFAULT_GAMMA urand0) urand0 i ≤
          bestScore (mkLeaf (N := 2) DEFAULT_GAMMA urand0) urand0
            (bestAction (mkLeaf (N := 2) DEFAULT_GAMMA urand0) urand0).1) ∧
      (∀ i, (bestAction (mkLeaf (N := 2) DEFAULT_GAMMA urand0) urand0).1 < i → i < 2 →
        bestScore (mkLeaf (N := 2) DEFAULT_GAMMA urand0) urand0 i <
          bestScore (mkLeaf (N := 2) DEFAULT_GAMMA urand0) urand0
            (bestAction (mkLeaf (N := 2) DEFAULT_GAMMA urand0) urand0).1)) :=
  bestAction_spec (mkLeaf (N := 2) DEFAULT_GAMMA urand0) urand0 (by decide)
    (by constructor <;> norm_num [mkLeaf, URand.peek, urand0])
    (by
      intro k hk
      norm_num [bestScore, mkLeaf, UCTreeNode.childD, dummyNode, URand.peek, urand0,
        EPSILON, dblMax, List.getD])

theorem wfL_getElem {N : ℕ} (cs : List (UCTreeNode N)) (a : ℕ) (c : UCTreeNode N)
    (hwf : wfL cs = true) (h : cs[a]? = some c) : wfB c = true :=
  wfL_mem cs c hwf (List.getElem?_mem h)

theorem wfL_set {N : ℕ} (cs : List (UCTreeNode N)) (a : ℕ) (c : UCTreeNode N)
    (hwf : wfL cs = true) (hc : wfB c = true) : wfL (cs.set a c) = true := by
  induction cs generalizing a with
  | nil => simpa using hwf
  | cons d ds ih =>
    simp only [wfL, Bool.and_eq_true] at hwf
    cases a with
    | zero => simp only [List.set_cons_zero, wfL, Bool.and_eq_true]; exact ⟨hc, hwf.2⟩
    | succ a =>
      simp only [List.set_cons_succ, wfL, Bool.and_eq_true]
      exact ⟨hwf.1, ih a hwf.2⟩

theorem allGammaL_getElem {N : ℕ} (g0 : ℚ) (cs : List (UCTreeNode N)) (a : ℕ)
    (c : UCTreeNode N) (hg : allGammaL g0 cs = true) (h : cs[a]? = some c) :
    allGammaB g0 c = true := by
  induction cs generalizing a with
  | nil => simp at h
  | cons d ds ih =>
    simp only [allGammaL, Bool.and_eq_true] at hg
    cases a with
    | zero => simp at h; rw [← h]; exact hg.1
    | succ a => exact ih a hg.2 (by simpa using h)

theorem allGammaL_set {N : ℕ} (g0 : ℚ) (cs : List (UCTreeNode N)) (a : ℕ)
    (c : UCTreeNode N) (hg : allGammaL g0 cs = true) (hc : allGammaB g0 c = true) :
    allGammaL g0 (cs.set a c) = true := by
  induction cs generalizing a with
  | nil => simpa using hg
  | cons d ds ih =>
    simp only [allGammaL, Bool.and_eq_true] at hg
    cases a with
    | zero => simp only [List.set_cons_zero, allGammaL, Bool.and_eq_true]; exact ⟨hc, hg.2⟩
    | succ a =>
      simp only [List.set_cons_succ, allGammaL, Bool.and_eq_true]
      exact ⟨hg.1, ih a hg.2⟩

theorem numOfNodesL_set {N : ℕ} (cs : List (UCTreeNode N)) (a : ℕ)
    (c cold : UCTreeNode N) (h : cs[a]? = some cold) :
    numOfNodesL (cs.set a c) + numOfNodes cold = numOfNodesL cs + numOfNodes c := by
  induction cs generalizing a with
  | nil => simp at h
  | cons d ds ih =>
    cases a with
    | zero =>
      simp at h
      subst h
      simp only [List.set_cons_zero, numOfNodesL]
      omega
    | succ a =>
      simp only [List.getElem?_cons_succ] at h
      have := ih a h
      simp only [List.set_cons_succ, numOfNodesL]
      omega

theorem wfB_setRand {N : ℕ} (t : UCTreeNode N) (r : URand) (hwf : wfB t = true) :
    wfB (t.setRand r) = true := by
  cases t with
  | mk l n v g r0 cs => simpa [wfB, UCTreeNode.setRand] using hwf

theorem wfB_updateStats {N : ℕ} (t : UCTreeNode N) (v : ℚ) (hwf : wfB t = true) :
    wfB (t.updateStats v) = true := by
  cases t with
  | mk l n v0 g r cs => simpa [wfB, UCTreeNode.updateStats] using hwf

theorem wfB_setChild {N : ℕ} (t : UCTreeNode N) (a : ℕ) (c cold : UCTreeNode N)
    (hwf : wfB t = true) (h : t.vpChildren_i[a]? = some cold) (hc : wfB c = true) :
    wfB (t.setChild a c) = true := by
  cases t with
  | mk l n v g r cs =>
    simp only [children_mk] at h
    have hlen : a < cs.length := by
      by_contra hcon
      rw [List.getElem?_eq_none (by omega)] at h
      cases h
    cases l with
    | true =>
      exfalso
      simp [wfB, List.isEmpty_iff] at hwf
      rw [hwf.1] at hlen
      simp at hlen
    | false =>
      simp only [wfB, Bool.and_eq_true, UCTreeNode.setChild] at hwf ⊢
      refine ⟨by simpa using hwf.1, wfL_set cs a c hwf.2 hc⟩

theorem allGammaB_setRand {N : ℕ} (g0 : ℚ) (t : UCTreeNode N) (r : URand)
    (hg : allGammaB g0 t = true) : allGammaB g0 (t.setRand r) = true := by
  cases t with
  | mk l n v g r0 cs => simpa [allGammaB, UCTreeNode.setRand] using hg

theorem allGammaB_updateStats {N : ℕ} (g0 : ℚ) (t : UCTreeNode N) (v : ℚ)
    (hg : allGammaB g0 t = true) : allGammaB g0 (t.updateStats v) = true := by
  cases t with
  | mk l n v0 g r cs => simpa [allGammaB, UCTreeNode.updateStats] using hg

theorem allGammaB_setChild {N : ℕ} (g0 : ℚ) (t : UCTreeNode N) (a : ℕ)
    (c : UCTreeNode N) (hg : allGammaB g0 t = true) (hc : allGammaB g0 c = true) :
    allGammaB g0 (t.setChild a c) = true := by
  cases t with
  | mk l n v g r cs =>
    simp only [allGammaB, Bool.and_eq_true, UCTreeNode.setChild] at hg ⊢
    exact ⟨hg.1, allGammaL_set g0 cs a c hg.2 hc⟩

theorem wfL_replicate {N : ℕ} (n : ℕ) (c : UCTreeNode N) (hc : wfB c = true) :
    wfL (List.replicate n c) = true := by
  induction n with
  | zero => rfl
  | succ n ih => simp only [List.replicate_succ, wfL, Bool.and_eq_true]; exact ⟨hc, ih⟩

theorem allGammaL_replicate {N : ℕ} (g0 : ℚ) (n : ℕ) (c : UCTreeNode N)
    (hc : allGammaB g0 c = true) : allGammaL g0 (List.replicate n c) = true := by
  induction n with
  | zero => rfl
  | succ n ih =>
    simp only [List.replicate_succ, allGammaL, Bool.and_eq_true]
    exact ⟨hc, ih⟩

theorem numOfNodesL_replicate {N : ℕ} (n : ℕ) (c : UCTreeNode N) :
    numOfNodesL (List.replicate n c) = n * numOfNodes c := by
  induction n with
  | zero => simp [numOfNodesL]
  | succ n ih =>
    simp only [List.replicate_succ, numOfNodesL, ih]
    ring

theorem wfB_mkLeaf {N : ℕ} (g : ℚ) (r : URand) : wfB (mkLeaf (N := N) g r) = true := rfl

theorem wfB_expand {N : ℕ} (dRand : URand) (t : UCTreeNode N) (hwf : wfB t = true) :
    wfB (expand dRand t) = true := by
  cases t with
  | mk l n v g r cs =>
    cases l with
    | true =>
      simp only [expand, if_pos]
      simp only [wfB, Bool.and_eq_true]
      exact ⟨by simp, wfL_replicate N _ (wfB_mkLeaf _ _)⟩
    | false => simpa [expand] using hwf

theorem numOfNodes_expand {N : ℕ} (dRand : URand) (t : UCTreeNode N)
    (hl : t.isLeaf_i = true) : numOfNodes (expand dRand t) = numOfNodes t + N := by
  cases t with
  | mk l n v g r cs =>
    simp only [isLeaf_mk] at hl
    subst hl
    simp [expand, numOfNodes, numOfNodesL_replicate, mkLeaf]

theorem numOfNodes_updateStats {N : ℕ} (t : UCTreeNode N) (v : ℚ) :
    numOfNodes (t.updateStats v) = numOfNodes t := by
  cases t; rfl

theorem numOfNodes_setRand {N : ℕ} (t : UCTreeNode N) (r : URand) :
    numOfNodes (t.setRand r) = numOfNodes t := by
  cases t; rfl

theorem numOfNodes_setChild {N : ℕ} (t : UCTreeNode N) (a : ℕ) (c cold : UCTreeNode N)
    (hl : t.isLeaf_i = false) (h : t.vpChildren_i[a]? = some cold) :
    numOfNodes (t.setChild a c) + numOfNodes cold = numOfNodes t + numOfNodes c := by
  cases t with
  | mk l n v g r cs =>
    simp only [isLeaf_mk] at hl
    subst hl
    simp only [children_mk] at h
    simp only [UCTreeNode.setChild, numOfNodes, if_neg (by simp : ¬false = true)]
    have := numOfNodesL_set cs a c cold h
    omega

theorem numOfNodes_backupAux {N : ℕ} (gamma v0 : ℚ) :
    ∀ (path : List (ℕ × ℚ)) (t : UCTreeNode N) (r : ℚ) (hl : wfB t = true),
      numOfNodes (backupAux gamma v0 t r path).1 = numOfNodes t := by
  intro path
  induction path with
  | nil => intro t r _; simp [backupAux, numOfNodes_updateStats]
  | cons p rest ih =>
    intro t r hwf
    obtain ⟨a, ra⟩ := p
    simp only [backupAux]
    cases h : t.vpChildren_i[a]? with
    | none => simp [numOfNodes_updateStats]
    | some c =>
      simp only []
      have hlf : t.isLeaf_i = false := by
        by_contra hcon
        rw [Bool.not_eq_false] at hcon
        rw [wfB_leaf_children t hwf hcon] at h
        simp at h
      have hc : wfB c = true := wfL_getElem _ a c (wfB_children t hwf) h
      have hrec := ih c ra hc
      rw [numOfNodes_updateStats]
      have hbal := numOfNodes_setChild t a (backupAux gamma v0 c ra rest).1 c hlf h
      omega

theorem wfB_backupAux {N : ℕ} (gamma v0 : ℚ) :
    ∀ (path : List (ℕ × ℚ)) (t : UCTreeNode N) (r : ℚ) (hwf : wfB t = true),
      wfB (backupAux gamma v0 t r path).1 = true := by
  intro path
  induction path with
  | nil => intro t r hwf; simpa [backupAux] using wfB_updateStats t _ hwf
  | cons p rest ih =>
    intro t r hwf
    obtain ⟨a, ra⟩ := p
    simp only [backupAux]
    cases h : t.vpChildren_i[a]? with
    | none => simpa using wfB_updateStats t _ hwf
    | some c =>
      simp only []
      have hc : wfB c = true := wfL_getElem _ a c (wfB_children t hwf) h
      exact wfB_updateStats _ _ (wfB_setChild t a _ c hwf h (ih c ra hc))

theorem allGammaB_backupAux {N : ℕ} (g0 gamma v0 : ℚ) :
    ∀ (path : List (ℕ × ℚ)) (t : UCTreeNode N) (r : ℚ) (hg : allGammaB g0 t = true),
      allGammaB g0 (backupAux gamma v0 t r path).1 = true := by
  intro path
  induction path with
  | nil => intro t r hg; simpa [backupAux] using allGammaB_updateStats g0 t _ hg
  | cons p rest ih =>
    intro t r hg
    obtain ⟨a, ra⟩ := p
    simp only [backupAux]
    cases h : t.vpChildren_i[a]? with
    | none => simpa using allGammaB_updateStats g0 t _ hg
    | some c =>
      simp only []
      have hc : allGammaB g0 c = true := by
        cases t with
        | mk l n v g r0 cs =>
          simp only [allGammaB, Bool.and_eq_true] at hg
          exact allGammaL_getElem g0 cs a c hg.2 (by simpa using h)
      exact allGammaB_updateStats g0 _ _ (allGammaB_setChild g0 t a _ hg (ih c ra hc))

theorem backVal_nil (gamma v0 : ℚ) : backVal gamma v0 [] = v0 := rfl

theorem backVal_cons (gamma v0 r : ℚ) (rs : List ℚ) :
    backVal gamma v0 (r :: rs) = r + gamma * backVal gamma v0 rs := rfl

theorem subnode_cons_some {N : ℕ} (a : ℕ) (as : List ℕ) (t c : UCTreeNode N)
    (h : t.vpChildren_i[a]? = some c) : subnode (a :: as) t = subnode as c := by
  rw [subnode_cons, h]
  rfl

theorem backupAux_spec {N : ℕ} (gamma v0 : ℚ) :
    ∀ (path : List (ℕ × ℚ)) (t : UCTreeNode N) (r : ℚ),
      (∀ i, i ≤ path.length → (subnode ((path.map Prod.fst).take i) t).isSome = true) →
      (backupAux gamma v0 t r path).2 = backVal gamma v0 (r :: path.map Prod.snd) ∧
      (∀ i, i ≤ path.length →
        ∃ u u', subnode ((path.map Prod.fst).take i) t = some u ∧
          subnode ((path.map Prod.fst).take i) (backupAux gamma v0 t r path).1 = some u' ∧
          u'.nVisits_i = u.nVisits_i + 1 ∧
          u'.totValue_i = u.totValue_i + backVal gamma v0 ((r :: path.map Prod.snd).drop i) ∧
          u'.isLeaf_i = u.isLeaf_i ∧ u'.gamma_i = u.gamma_i ∧ u'.rand_i = u.rand_i) ∧
      (∀ as : List ℕ, (¬ ∃ i, as = (path.map Prod.fst).take i) →
        subnode as (backupAux gamma v0 t r path).1 = subnode as t) := by
  intro path
  induction path with
  | nil =>
    intro t r _
    refine ⟨by simp [backupAux, backVal], ?_, ?_⟩
    · intro i hi
      have hi0 : i = 0 := by simpa using hi
      subst hi0
      refine ⟨t, t.updateStats (r + gamma * v0), by simp, by simp [backupAux], ?_⟩
      simp [backVal]
    · intro as hnp
      cases as with
      | nil => exact absurd ⟨0, rfl⟩ hnp
      | cons b bs =>
        rw [subnode_cons, subnode_cons]
        simp [backupAux]
  | cons p rest ih =>
    intro t r hvalid
    obtain ⟨a, ra⟩ := p
    have h1 := hvalid 1 (by simp)
    rw [show ((((a, ra) :: rest).map Prod.fst).take 1) = [a] by simp] at h1
    rw [subnode_cons] at h1
    cases hc : t.vpChildren_i[a]? with
    | none => rw [hc] at h1; simp at h1
    | some c =>
      rw [hc] at h1
      have halen : a < t.vpChildren_i.length := by
        by_contra hcon
        rw [List.getElem?_eq_none (by omega)] at hc
        cases hc
      have hvalid' : ∀ i, i ≤ rest.length →
          (subnode ((rest.map Prod.fst).take i) c).isSome = true := by
        intro i hi
        have := hvalid (i + 1) (by simpa using hi)
        rw [show ((((a, ra) :: rest).map Prod.fst).take (i + 1)) =
          a :: ((rest.map Prod.fst).take i) by simp] at this
        rwa [subnode_cons_some a _ t c hc] at this
      obtain ⟨ihv, ihs, ihf⟩ := ih c ra hvalid'
      have hred : backupAux gamma v0 t r ((a, ra) :: rest) =
          ((t.setChild a (backupAux gamma v0 c ra rest).1).updateStats
              (r + gamma * (backupAux gamma v0 c ra rest).2),
            r + gamma * (backupAux gamma v0 c ra rest).2) := by
        simp only [backupAux, hc]
      have hsetget : ((t.setChild a (backupAux gamma v0 c ra rest).1).updateStats
          (r + gamma * (backupAux gamma v0 c ra rest).2)).vpChildren_i[a]? =
          some (backupAux gamma v0 c ra rest).1 := by
        rw [children_updateStats, children_setChild]
        exact List.getElem?_set_self halen
      refine ⟨?_, ?_, ?_⟩
      · rw [hred]
        simp only [List.map_cons, backVal_cons, ihv]
      · intro i hi
        cases i with
        | zero =>
          refine ⟨t, (t.setChild a (backupAux gamma v0 c ra rest).1).updateStats
              (r + gamma * (backupAux gamma v0 c ra rest).2),
            by simp, by rw [hred]; simp, by simp, ?_, by simp, by simp, by simp⟩
          simp [ihv, backVal_cons]
        | succ i =>
          have hi' : i ≤ rest.length := by simpa using hi
          obtain ⟨u, u', hu, hu', hn, hv, hl, hg, hr⟩ := ihs i hi'
          rw [hred]
          refine ⟨u, u', ?_, ?_, hn, ?_, hl, hg, hr⟩
          · rw [show ((((a, ra) :: rest).map Prod.fst).take (i + 1)) =
              a :: ((rest.map Prod.fst).take i) by simp]
            rw [subnode_cons_some a _ t c hc]
            exact hu
          · rw [show ((((a, ra) :: rest).map Prod.fst).take (i + 1)) =
              a :: ((rest.map Prod.fst).take i) by simp]
            rw [subnode_cons_some a _ _ _ hsetget]
            exact hu'
          · rw [hv]
            simp
      · intro as hnp
        cases as with
        | nil => exact absurd ⟨0, rfl⟩ hnp
        | cons b bs =>
          rw [hred]
          by_cases hba : b = a
          · subst hba
            rw [subnode_cons_some b _ _ _ hsetget, subnode_cons_some b _ t c hc]
            refine ihf bs ?_
            intro ⟨j, hj⟩
            refine hnp ⟨j + 1, ?_⟩
            simp [hj]
          · rw [subnode_cons, subnode_cons, children_updateStats, children_setChild,
              List.getElem?_set_ne (by omega)]

@[simp] theorem gamma_expand {N : ℕ} (dRand : URand) (t : UCTreeNode N) :
    (expand dRand t).gamma_i = t.gamma_i := by
  cases t with
  | mk l n v g r cs => cases l <;> simp [expand]

@[simp] theorem nVisits_expand {N : ℕ} (dRand : URand) (t : UCTreeNode N) :
    (expand dRand t).nVisits_i = t.nVisits_i := by
  cases t with
  | mk l n v g r cs => cases l <;> simp [expand]

@[simp] theorem totValue_expand {N : ℕ} (dRand : URand) (t : UCTreeNode N) :
    (expand dRand t).totValue_i = t.totValue_i := by
  cases t with
  | mk l n v g r cs => cases l <;> simp [expand]

@[simp] theorem rand_expand {N : ℕ} (dRand : URand) (t : UCTreeNode N) :
    (expand dRand t).rand_i = t.rand_i := by
  cases t with
  | mk l n v g r cs => cases l <;> simp [expand]

theorem children_expand_leaf {N : ℕ} (dRand : URand) (t : UCTreeNode N)
    (hl : t.isLeaf_i = true) :
    (expand dRand t).vpChildren_i = List.replicate N (mkLeaf DEFAULT_GAMMA dRand) := by
  cases t with
  | mk l n v g r cs =>
    simp only [isLeaf_mk] at hl
    subst hl
    simp [expand]

theorem allGammaB_mkLeafDefault {N : ℕ} (dRand : URand) :
    allGammaB DEFAULT_GAMMA (mkLeaf (N := N) DEFAULT_GAMMA dRand) = true := by
  simp [allGammaB, mkLeaf, allGammaL]

theorem allGammaB_expand {N : ℕ} (dRand : URand) (t : UCTreeNode N)
    (hg : allGammaB DEFAULT_GAMMA t = true) :
    allGammaB DEFAULT_GAMMA (expand dRand t) = true := by
  cases t with
  | mk l n v g r cs =>
    cases l with
    | true =>
      simp only [expand, if_pos, allGammaB, Bool.and_eq_true]
      simp only [allGammaB, Bool.and_eq_true] at hg
      exact ⟨hg.1, allGammaL_replicate _ N _ (allGammaB_mkLeafDefault dRand)⟩
    | false => simpa [expand] using hg

theorem descend_leaf_eq {N : ℕ} (dRand : URand) (t : UCTreeNode N) (m : MDP)
    (hl : t.isLeaf_i = true) :
    descend dRand t m =
      ((expand dRand t).setRand ((expand dRand t).rand_i.advance N),
        [((selScan (uctScore (expand dRand t)) (-(dblMax : ℝ)) N).1,
          (m.call (selScan (uctScore (expand dRand t)) (-(dblMax : ℝ)) N).1).1)],
        (m.call (selScan (uctScore (expand dRand t)) (-(dblMax : ℝ)) N).1).2) := by
  rw [descend, if_pos hl]

theorem descend_internal_eq {N : ℕ} (dRand : URand) (t : UCTreeNode N) (m : MDP)
    (hl : t.isLeaf_i = false) (c : UCTreeNode N)
    (hc : t.vpChildren_i[(selScan (uctScore t) (-(dblMax : ℝ)) N).1]? = some c) :
    descend dRand t m =
      ((t.setRand (t.rand_i.advance N)).setChild (selScan (uctScore t) (-(dblMax : ℝ)) N).1
          (descend dRand c (m.call (selScan (uctScore t) (-(dblMax : ℝ)) N).1).2).1,
        ((selScan (uctScore t) (-(dblMax : ℝ)) N).1,
          (m.call (selScan (uctScore t) (-(dblMax : ℝ)) N).1).1) ::
          (descend dRand c (m.call (selScan (uctScore t) (-(dblMax : ℝ)) N).1).2).2.1,
        (descend dRand c (m.call (selScan (uctScore t) (-(dblMax : ℝ)) N).1).2).2.2) := by
  rw [descend, if_neg (by simp [hl])]
  dsimp only
  split
  · rename_i hnone
    rw [hc] at hnone
    cases hnone
  · rename_i c2 hc2
    rw [hc] at hc2
    injection hc2 with hc2
    subst hc2
    rfl

theorem descend_no_child {N : ℕ} (dRand : URand) (t : UCTreeNode N) (m : MDP)
    (hwf : wfB t = true) (hN : 0 < N) (hl : t.isLeaf_i = false) :
    ∃ c, t.vpChildren_i[(selScan (uctScore t) (-(dblMax : ℝ)) N).1]? = some c := by
  have hlen := wfB_length t hwf hl
  have halt := selScan_fst_lt (uctScore t) (-(dblMax : ℝ)) N hN
  rcases hcc : t.vpChildren_i[(selScan (uctScore t) (-(dblMax : ℝ)) N).1]? with _ | c
  · rw [List.getElem?_eq_none_iff] at hcc
    omega
  · exact ⟨c, rfl⟩

theorem descend_root_scalars {N : ℕ} (dRand : URand) (t : UCTreeNode N) (m : MDP)
    (hwf : wfB t = true) (hN : 0 < N) :
    (descend dRand t m).1.gamma_i = t.gamma_i ∧
    (descend dRand t m).1.nVisits_i = t.nVisits_i ∧
    (descend dRand t m).1.totValue_i = t.totValue_i ∧
    (descend dRand t m).1.isLeaf_i = false := by
  by_cases hl : t.isLeaf_i = true
  · rw [descend_leaf_eq dRand t m hl]
    cases t with
    | mk l n v g r cs =>
      simp only [isLeaf_mk] at hl
      subst hl
      simp [expand]
  · obtain ⟨c, hc⟩ := descend_no_child dRand t m hwf hN (by simpa using hl)
    rw [descend_internal_eq dRand t m (by simpa using hl) c hc]
    simp [Bool.eq_false_iff, hl]

theorem numOfNodes_descend {N : ℕ} (dRand : URand) :
    ∀ (t : UCTreeNode N) (m : MDP), wfB t = true → 0 < N →
      numOfNodes (descend dRand t m).1 = numOfNodes t + N := by
  intro t m
  induction t, m using descend.induct dRand with
  | case1 t m hl =>
    intro hwf hN
    rw [descend_leaf_eq dRand t m hl]
    simp only [numOfNodes_setRand]
    exact numOfNodes_expand dRand t hl
  | case2 t m hl a hc =>
    intro hwf hN
    exfalso
    obtain ⟨c, hcs⟩ := descend_no_child dRand t m hwf hN (by simpa using hl)
    rw [show a = (selScan (uctScore t) (-(dblMax : ℝ)) N).1 from rfl] at hc
    rw [hcs] at hc
    cases hc
  | case3 t m hl a c hc step ih =>
    intro hwf hN
    have hlf : t.isLeaf_i = false := by simpa using hl
    have hc2 : t.vpChildren_i[(selScan (uctScore t) (-(dblMax : ℝ)) N).1]? = some c := hc
    have hcwf : wfB c = true := wfL_getElem _ _ c (wfB_children t hwf) hc2
    have hrec : numOfNodes
        (descend dRand c (m.call (selScan (uctScore t) (-(dblMax : ℝ)) N).1).2).1 =
        numOfNodes c + N := ih hcwf hN
    rw [descend_internal_eq dRand t m hlf c hc2]
    dsimp only
    have hbal := numOfNodes_setChild (t.setRand (t.rand_i.advance N))
      (selScan (uctScore t) (-(dblMax : ℝ)) N).1
      (descend dRand c (m.call (selScan (uctScore t) (-(dblMax : ℝ)) N).1).2).1 c
      (by simpa using hlf) (by simpa using hc2)
    rw [numOfNodes_setRand] at hbal
    omega

theorem wfB_descend {N : ℕ} (dRand : URand) :
    ∀ (t : UCTreeNode N) (m : MDP), wfB t = true → 0 < N →
      wfB (descend dRand t m).1 = true := by
  intro t m
  induction t, m using descend.induct dRand with
  | case1 t m hl =>
    intro hwf hN
    rw [descend_leaf_eq dRand t m hl]
    exact wfB_setRand _ _ (wfB_expand dRand t hwf)
  | case2 t m hl a hc =>
    intro hwf hN
    exfalso
    obtain ⟨c, hcs⟩ := descend_no_child dRand t m hwf hN (by simpa using hl)
    rw [show a = (selScan (uctScore t) (-(dblMax : ℝ)) N).1 from rfl] at hc
    rw [hcs] at hc
    cases hc
  | case3 t m hl a c hc step ih =>
    intro hwf hN
    have hlf : t.isLeaf_i = false := by simpa using hl
    have hc2 : t.vpChildren_i[(selScan (uctScore t) (-(dblMax : ℝ)) N).1]? = some c := hc
    have hcwf : wfB c = true := wfL_getElem _ _ c (wfB_children t hwf) hc2
    have hrec : wfB (descend dRand c
        (m.call (selScan (uctScore t) (-(dblMax : ℝ)) N).1).2).1 = true := ih hcwf hN
    rw [descend_internal_eq dRand t m hlf c hc2]
    dsimp only
    exact wfB_setChild _ _ _ c (wfB_setRand t _ hwf) (by simpa using hc2) hrec

theorem allGammaB_descend {N : ℕ} (dRand : URand) :
    ∀ (t : UCTreeNode N) (m : MDP), wfB t = true → 0 < N →
      allGammaB DEFAULT_GAMMA t = true →
      allGammaB DEFAULT_GAMMA (descend dRand t m).1 = true := by
  intro t m
  induction t, m using descend.induct dRand with
  | case1 t m hl =>
    intro hwf hN hg
    rw [descend_leaf_eq dRand t m hl]
    exact allGammaB_setRand _ _ _ (allGammaB_expand dRand t hg)
  | case2 t m hl a hc =>
    intro hwf hN hg
    exfalso
    obtain ⟨c, hcs⟩ := descend_no_child dRand t m hwf hN (by simpa using hl)
    rw [show a = (selScan (uctScore t) (-(dblMax : ℝ)) N).1 from rfl] at hc
    rw [hcs] at hc
    cases hc
  | case3 t m hl a c hc step ih =>
    intro hwf hN hg
    have hlf : t.isLeaf_i = false := by simpa using hl
    have hc2 : t.vpChildren_i[(selScan (uctScore t) (-(dblMax : ℝ)) N).1]? = some c := hc
    have hcwf : wfB c = true := wfL_getElem _ _ c (wfB_children t hwf) hc2
    have hcg : allGammaB DEFAULT_GAMMA c = true := by
      cases t with
      | mk l n v g r0 cs =>
        simp only [allGammaB, Bool.and_eq_true] at hg
        exact allGammaL_getElem _ cs _ c hg.2 (by simpa using hc2)
    have hrec : allGammaB DEFAULT_GAMMA (descend dRand c
        (m.call (selScan (uctScore t) (-(dblMax : ℝ)) N).1).2).1 = true := ih hcwf hN hcg
    rw [descend_internal_eq dRand t m hlf c hc2]
    dsimp only
    exact allGammaB_setChild _ _ _ _ (allGammaB_setRand _ t _ hg) hrec

theorem descend_path {N : ℕ} (dRand : URand) :
    ∀ (t : UCTreeNode N) (m : MDP), wfB t = true → 0 < N →
      ∃ as0 alast L,
        ((descend dRand t m).2.1.map Prod.fst) = as0 ++ [alast] ∧
        alast < N ∧
        subnode as0 t = some L ∧
        L.isLeaf_i = true ∧
        (∀ b, b < N →
          subnode (as0 ++ [b]) (descend dRand t m).1 = some (mkLeaf DEFAULT_GAMMA dRand)) ∧
        (∀ i, i ≤ (as0 ++ [alast]).length →
          (subnode ((as0 ++ [alast]).take i) (descend dRand t m).1).isSome = true) ∧
        (∀ as : List ℕ, (¬ ∃ i, as = (as0 ++ [alast]).take i) →
          (¬ ∃ bs, as = as0 ++ bs) →
          subnode as (descend dRand t m).1 = subnode as t) := by
  intro t m
  induction t, m using descend.induct dRand with
  | case1 t m hl =>
    intro hwf hN
    rw [descend_leaf_eq dRand t m hl]
    dsimp only
    refine ⟨[], (selScan (uctScore (expand dRand t)) (-(dblMax : ℝ)) N).1, t,
      by simp, selScan_fst_lt _ _ N hN, by simp, hl, ?_, ?_, ?_⟩
    · intro b hb
      rw [List.nil_append, subnode_cons, children_setRand, children_expand_leaf dRand t hl]
      simp [List.getElem?_replicate, hb]
    · intro i hi
      simp only [List.nil_append, List.length_cons, List.length_nil] at hi
      match i, hi with
      | 0, _ => simp
      | 1, _ =>
        rw [List.nil_append]
        rw [show (([(selScan (uctScore (expand dRand t)) (-(dblMax : ℝ)) N).1]).take 1) =
          [(selScan (uctScore (expand dRand t)) (-(dblMax : ℝ)) N).1] from rfl]
        rw [subnode_cons, children_setRand, children_expand_leaf dRand t hl]
        simp [List.getElem?_replicate, selScan_fst_lt (uctScore (expand dRand t)) _ N hN]
    · intro as h1 h2
      exact absurd ⟨as, by simp⟩ h2
  | case2 t m hl a hc =>
    intro hwf hN
    exfalso
    obtain ⟨c, hcs⟩ := descend_no_child dRand t m hwf hN (by simpa using hl)
    rw [show a = (selScan (uctScore t) (-(dblMax : ℝ)) N).1 from rfl] at hc
    rw [hcs] at hc
    cases hc
  | case3 t m hl a c hc step ih =>
    intro hwf hN
    have hlf : t.isLeaf_i = false := by simpa using hl
    have hc2 : t.vpChildren_i[(selScan (uctScore t) (-(dblMax : ℝ)) N).1]? = some c := hc
    have hcwf : wfB c = true := wfL_getElem _ _ c (wfB_children t hwf) hc2
    have halen : (selScan (uctScore t) (-(dblMax : ℝ)) N).1 < t.vpChildren_i.length := by
      by_contra hcon
      rw [List.getElem?_eq_none (by omega)] at hc2
      cases hc2
    obtain ⟨as0, alast, L, ihm, ihlt, ihsub, ihleaf, ihnew, ihvalid, ihframe⟩ :=
      ih hcwf hN
    rw [descend_internal_eq dRand t m hlf c hc2]
    dsimp only
    have hTget : ((t.setRand (t.rand_i.advance N)).setChild
        (selScan (uctScore t) (-(dblMax : ℝ)) N).1
        (descend dRand c (m.call (selScan (uctScore t) (-(dblMax : ℝ)) N).1).2).1
        ).vpChildren_i[(selScan (uctScore t) (-(dblMax : ℝ)) N).1]? =
        some (descend dRand c (m.call (selScan (uctScore t) (-(dblMax : ℝ)) N).1).2).1 := by
      rw [children_setChild, children_setRand]
      exact List.getElem?_set_self halen
    refine ⟨(selScan (uctScore t) (-(dblMax : ℝ)) N).1 :: as0, alast, L,
      by simp [ihm], ihlt, ?_, ihleaf, ?_, ?_, ?_⟩
    · rw [subnode_cons_some _ _ t c hc2]
      exact ihsub
    · intro b hb
      rw [List.cons_append, subnode_cons_some _ _ _ _ hTget]
      exact ihnew b hb
    · intro i hi
      cases i with
      | zero => simp
      | succ j =>
        rw [List.cons_append, List.take_succ_cons, subnode_cons_some _ _ _ _ hTget]
        exact ihvalid j (by simpa using hi)
    · intro as h1 h2
      cases as with
      | nil => exact absurd ⟨0, rfl⟩ h1
      | cons b bs =>
        by_cases hba : b = (selScan (uctScore t) (-(dblMax : ℝ)) N).1
        · subst hba
          rw [subnode_cons_some _ _ _ _ hTget, subnode_cons_some _ _ t c hc2]
          refine ihframe bs ?_ ?_
          · intro ⟨j, hj⟩
            exact h1 ⟨j + 1, by simp [List.cons_append, List.take_succ_cons, hj]⟩
          · intro ⟨bs2, hbs2⟩
            exact h2 ⟨bs2, by simp [hbs2]⟩
        · rw [subnode_cons, subnode_cons, children_setChild, children_setRand,
            List.getElem?_set_ne (by omega)]

mutual

theorem copyCtor_eq {N : ℕ} : ∀ (t : UCTreeNode N), copyCtor t = t
  | .mk l n v g r cs => by
    cases l with
    | true => simp [copyCtor]
    | false => simp [copyCtor, copyL_eq cs]

theorem copyL_eq {N : ℕ} : ∀ (cs : List (UCTreeNode N)), copyL cs = cs
  | [] => rfl
  | c :: cs => by rw [copyL, copyCtor_eq c, copyL_eq cs]

end

theorem numOfNodes_iterate {N : ℕ} (dRand : URand) (t : UCTreeNode N) (m : MDP)
    (hwf : wfB t = true) (hN : 0 < N) :
    numOfNodes (iterate dRand t m).1 = numOfNodes t + N := by
  rw [iterate]
  dsimp only
  rw [numOfNodes_backupAux _ _ _ _ _ (wfB_setRand _ _ (wfB_descend dRand t m hwf hN))]
  rw [numOfNodes_setRand]
  exact numOfNodes_descend dRand t m hwf hN

theorem wfB_iterate {N : ℕ} (dRand : URand) (t : UCTreeNode N) (m : MDP)
    (hwf : wfB t = true) (hN : 0 < N) : wfB (iterate dRand t m).1 = true := by
  rw [iterate]
  dsimp only
  exact wfB_backupAux _ _ _ _ _ (wfB_setRand _ _ (wfB_descend dRand t m hwf hN))

theorem allGammaB_iterate {N : ℕ} (dRand : URand) (t : UCTreeNode N) (m : MDP)
    (hwf : wfB t = true) (hN : 0 < N) (hg : allGammaB DEFAULT_GAMMA t = true) :
    allGammaB DEFAULT_GAMMA (iterate dRand t m).1 = true := by
  rw [iterate]
  dsimp only
  exact allGammaB_backupAux _ _ _ _ _ _
    (allGammaB_setRand _ _ _ (allGammaB_descend dRand t m hwf hN hg))

theorem numOfNodes_iterateK {N : ℕ} (dRand : URand) :
    ∀ (k : ℕ) (t : UCTreeNode N) (m : MDP), wfB t = true → 0 < N →
      numOfNodes (iterateK dRand k t m).1 = numOfNodes t + N * k := by
  intro k
  induction k with
  | zero => intro t m _ _; simp [iterateK]
  | succ k ihk =>
    intro t m hwf hN
    rw [iterateK]
    rw [ihk _ _ (wfB_iterate dRand t m hwf hN) hN, numOfNodes_iterate dRand t m hwf hN]
    ring

theorem iterate_backup_spec {N : ℕ} (dRand : URand) (t : UCTreeNode N) (m : MDP)
    (hwf : wfB t = true) (hN : 0 < N) :
    (∀ i, i ≤ (descend dRand t m).2.1.length →
      ∃ u u',
        subnode (((descend dRand t m).2.1.map Prod.fst).take i)
          ((descend dRand t m).1.setRand
            (rollOut N (descend dRand t m).1.gamma_i (descend dRand t m).1.rand_i
              (descend dRand t m).2.2).2) = some u ∧
        subnode (((descend dRand t m).2.1.map Prod.fst).take i) (iterate dRand t m).1 =
          some u' ∧
        u'.nVisits_i = u.nVisits_i + 1 ∧
        u'.totValue_i = u.totValue_i + backVal (descend dRand t m).1.gamma_i
          (rollOut N (descend dRand t m).1.gamma_i (descend dRand t m).1.rand_i
            (descend dRand t m).2.2).1
          ((0 :: (descend dRand t m).2.1.map Prod.snd).drop i) ∧
        u'.isLeaf_i = u.isLeaf_i ∧ u'.gamma_i = u.gamma_i ∧ u'.rand_i = u.rand_i) ∧
    (∀ as : List ℕ, (¬ ∃ j, as = ((descend dRand t m).2.1.map Prod.fst).take j) →
      subnode as (iterate dRand t m).1 =
        subnode as ((descend dRand t m).1.setRand
          (rollOut N (descend dRand t m).1.gamma_i (descend dRand t m).1.rand_i
            (descend dRand t m).2.2).2)) := by
  obtain ⟨as0, alast, L, hm, hlt, hsub, hleaf, hnew, hvalid, hframe⟩ :=
    descend_path dRand t m hwf hN
  have hvalid2 : ∀ j, j ≤ (descend dRand t m).2.1.length →
      (subnode (((descend dRand t m).2.1.map Prod.fst).take j)
        ((descend dRand t m).1.setRand
          (rollOut N (descend dRand t m).1.gamma_i (descend dRand t m).1.rand_i
            (descend dRand t m).2.2).2)).isSome = true := by
    intro j hj
    cases j with
    | zero => simp
    | succ j2 =>
      rw [subnode_setRand _ _ _ (by
        rw [hm]
        simp [List.take_eq_nil_iff])]
      rw [hm]
      rw [← hm]
      rw [hm]
      refine hvalid (j2 + 1) ?_
      have : ((descend dRand t m).2.1.map Prod.fst).length =
          (descend dRand t m).2.1.length := List.length_map _ _
      rw [hm] at this
      omega
  obtain ⟨hval, hstats, hfr⟩ := backupAux_spec (descend dRand t m).1.gamma_i
    (rollOut N (descend dRand t m).1.gamma_i (descend dRand t m).1.rand_i
      (descend dRand t m).2.2).1
    (descend dRand t m).2.1
    ((descend dRand t m).1.setRand
      (rollOut N (descend dRand t m).1.gamma_i (descend dRand t m).1.rand_i
        (descend dRand t m).2.2).2)
    0 hvalid2
  constructor
  · intro i hi
    obtain ⟨u, u', hu, hu', hrest⟩ := hstats i hi
    refine ⟨u, u', hu, ?_, hrest⟩
    rw [iterate]
    dsimp only
    exact hu'
  · intro as hnp
    rw [iterate]
    dsimp only
    exact hfr as (by
      intro ⟨j, hj⟩
      exact hnp ⟨j, hj⟩)

/-- C2: during the backpropagation phase of iterate the visited-path
and reward stacks unwind in lock-step: writing v0 for the rollout
estimate, the node at depth i of the traversed path receives exactly
one updateStats call, its visit count growing by 1 and its total value
by backVal gamma v0 of the rewards at depth i and below -- the value
recomputed as value = popped_reward + discountFactor * value at each
step -- with the root paired against the 0.0 placeholder and so
receiving the most-discounted value. -/
theorem iterate_backprop_lockstep {N : ℕ} (dRand : URand) (t : UCTreeNode N) (m : MDP)
    (hwf : wfB t = true) (hN : 0 < N) (i : ℕ)
    (hi : i ≤ (descend dRand t m).2.1.length) :
    ∃ pre post,
      subnode (((descend dRand t m).2.1.map Prod.fst).take i)
        ((descend dRand t m).1.setRand
          (rollOut N t.gamma_i (descend dRand t m).1.rand_i
            (descend dRand t m).2.2).2) = some pre ∧
      subnode (((descend dRand t m).2.1.map Prod.fst).take i) (iterate dRand t m).1 =
        some post ∧
      post.nVisits_i = pre.nVisits_i + 1 ∧
      post.totValue_i = pre.totValue_i + backVal t.gamma_i
        (rollOut N t.gamma_i (descend dRand t m).1.rand_i (descend dRand t m).2.2).1
        ((0 :: (descend dRand t m).2.1.map Prod.snd).drop i) ∧
      post.isLeaf_i = pre.isLeaf_i ∧ post.gamma_i = pre.gamma_i ∧
      post.rand_i = pre.rand_i := by
  have hg := (descend_root_scalars dRand t m hwf hN).1
  rw [← hg]
  exact (iterate_backup_spec dRand t m hwf hN).1 i hi

theorem iterate_backprop_lockstep_w :
    ∃ pre post,
      subnode (((descend urand0 (mkLeaf (N := 2) DEFAULT_GAMMA urand0) mdp0).2.1.map
          Prod.fst).take 0)
        ((descend urand0 (mkLeaf (N := 2) DEFAULT_GAMMA urand0) mdp0).1.setRand
          (rollOut 2 (mkLeaf (N := 2) DEFAULT_GAMMA urand0).gamma_i
            (descend urand0 (mkLeaf (N := 2) DEFAULT_GAMMA urand0) mdp0).1.rand_i
            (descend urand0 (mkLeaf (N := 2) DEFAULT_GAMMA urand0) mdp0).2.2).2) =
        some pre ∧
      subnode (((descend urand0 (mkLeaf (N := 2) DEFAULT_GAMMA urand0) mdp0).2.1.map
          Prod.fst).take 0)
        (iterate urand0 (mkLeaf (N := 2) DEFAULT_GAMMA urand0) mdp0).1 = some post ∧
      post.nVisits_i = pre.nVisits_i + 1 ∧
      post.totValue_i = pre.totValue_i + backVal (mkLeaf (N := 2) DEFAULT_GAMMA urand0).gamma_i
        (rollOut 2 (mkLeaf (N := 2) DEFAULT_GAMMA urand0).gamma_i
          (descend urand0 (mkLeaf (N := 2) DEFAULT_GAMMA urand0) mdp0).1.rand_i
          (descend urand0 (mkLeaf (N := 2) DEFAULT_GAMMA urand0) mdp0).2.2).1
        ((0 :: (descend urand0 (mkLeaf (N := 2) DEFAULT_GAMMA urand0) mdp0).2.1.map
          Prod.snd).drop 0) ∧
      post.isLeaf_i = pre.isLeaf_i ∧ post.gamma_i = pre.gamma_i ∧
      post.rand_i = pre.rand_i :=
  iterate_backprop_lockstep urand0 (mkLeaf (N := 2) DEFAULT_GAMMA urand0) mdp0
    (by decide) (by decide) 0 (Nat.zero_le _)

/-- C5: one iterate call descends to a leaf (at address as0), expands
it and updates only the traversed path: the path to the new leaf at
as0 ++ [alast] is one edge longer than the old path to the leaf at
as0; the new leaf has been visited exactly once; the sibling leaves
created alongside it are exactly fresh default-constructed leaves
(zero visits, zero total value); and every node whose address is
neither on the traversed path nor below the expanded leaf is entirely
unchanged. -/
theorem iterate_frame {N : ℕ} (dRand : URand) (t : UCTreeNode N) (m : MDP)
    (hwf : wfB t = true) (hN : 0 < N) :
    ∃ as0 alast,
      ((descend dRand t m).2.1.map Prod.fst) = as0 ++ [alast] ∧
      alast < N ∧
      (∃ oldLeaf, subnode as0 t = some oldLeaf ∧ oldLeaf.isLeaf_i = true) ∧
      (∃ newLeaf, subnode (as0 ++ [alast]) (iterate dRand t m).1 = some newLeaf ∧
        newLeaf.isLeaf_i = true ∧ newLeaf.nVisits_i = 1) ∧
      (∀ b, b < N → b ≠ alast →
        subnode (as0 ++ [b]) (iterate dRand t m).1 =
          some (mkLeaf DEFAULT_GAMMA dRand)) ∧
      (∀ as : List ℕ,
        (¬ ∃ j, as = ((descend dRand t m).2.1.map Prod.fst).take j) →
        (¬ ∃ bs, as = as0 ++ bs) →
        subnode as (iterate dRand t m).1 = subnode as t) := by
  obtain ⟨as0, alast, L, hm, hlt, hsub, hleaf, hnew, hvalid, hframe⟩ :=
    descend_path dRand t m hwf hN
  obtain ⟨hstats, hfr⟩ := iterate_backup_spec dRand t m hwf hN
  refine ⟨as0, alast, hm, hlt, ⟨L, hsub, hleaf⟩, ?_, ?_, ?_⟩
  · have hlenm : ((descend dRand t m).2.1.map Prod.fst).length =
        (descend dRand t m).2.1.length := List.length_map _ _
    obtain ⟨u, u', hu, hu', hn, hv, hl2, hg2, hr2⟩ :=
      hstats (descend dRand t m).2.1.length (le_refl _)
    have htake : (((descend dRand t m).2.1.map Prod.fst).take
        (descend dRand t m).2.1.length) = ((descend dRand t m).2.1.map Prod.fst) := by
      rw [← hlenm]
      exact List.take_length _
    rw [htake] at hu hu'
    have hacts_t2 : subnode ((descend dRand t m).2.1.map Prod.fst)
        ((descend dRand t m).1.setRand
          (rollOut N (descend dRand t m).1.gamma_i (descend dRand t m).1.rand_i
            (descend dRand t m).2.2).2) = some (mkLeaf DEFAULT_GAMMA dRand) := by
      rw [subnode_setRand _ _ _ (by rw [hm]; simp)]
      rw [hm]
      exact hnew alast hlt
    have hueq : u = mkLeaf DEFAULT_GAMMA dRand := by
      rw [hu] at hacts_t2
      exact Option.some.inj hacts_t2
    refine ⟨u', ?_, ?_, ?_⟩
    · rw [← hm]
      exact hu'
    · rw [hl2, hueq]
      rfl
    · rw [hn, hueq]
      simp [mkLeaf]
  · intro b hb hba
    have hnp : ¬ ∃ j, as0 ++ [b] = ((descend dRand t m).2.1.map Prod.fst).take j := by
      intro ⟨j, hj⟩
      by_cases hjl : ((descend dRand t m).2.1.map Prod.fst).length ≤ j
      · rw [List.take_of_length_le hjl, hm] at hj
        have hc := List.append_cancel_left hj
        injection hc with hc
        exact hba hc
      · push_neg at hjl
        have hlent : ((((descend dRand t m).2.1.map Prod.fst)).take j).length = j := by
          rw [List.length_take]
          omega
        rw [← hj] at hlent
        have hlacts : ((descend dRand t m).2.1.map Prod.fst).length = as0.length + 1 := by
          rw [hm]
          simp
        simp at hlent
        omega
    rw [hfr _ hnp]
    rw [subnode_setRand _ _ _ (by simp)]
    exact hnew b hb
  · intro as h1 h2
    rw [hfr as h1]
    have hne : as ≠ [] := by
      intro he
      exact h1 ⟨0, by simp [he]⟩
    rw [subnode_setRand _ _ _ hne]
    exact hframe as (fun ⟨i, hi⟩ => h1 ⟨i, by rw [hm]; exact hi⟩) h2

theorem iterate_frame_w :
    ∃ as0 alast,
      ((descend urand0 (mkLeaf (N := 2) DEFAULT_GAMMA urand0) mdp0).2.1.map
        Prod.fst) = as0 ++ [alast] ∧
      alast < 2 ∧
      (∃ oldLeaf, subnode as0 (mkLeaf (N := 2) DEFAULT_GAMMA urand0) = some oldLeaf ∧
        oldLeaf.isLeaf_i = true) ∧
      (∃ newLeaf, subnode (as0 ++ [alast])
          (iterate urand0 (mkLeaf (N := 2) DEFAULT_GAMMA urand0) mdp0).1 =
          some newLeaf ∧
        newLeaf.isLeaf_i = true ∧ newLeaf.nVisits_i = 1) ∧
      (∀ b, b < 2 → b ≠ alast →
        subnode (as0 ++ [b])
          (iterate urand0 (mkLeaf (N := 2) DEFAULT_GAMMA urand0) mdp0).1 =
          some (mkLeaf DEFAULT_GAMMA urand0)) ∧
      (∀ as : List ℕ,
        (¬ ∃ j, as = ((descend urand0 (mkLeaf (N := 2) DEFAULT_GAMMA urand0)
          mdp0).2.1.map Prod.fst).take j) →
        (¬ ∃ bs, as = as0 ++ bs) →
        subnode as (iterate urand0 (mkLeaf (N := 2) DEFAULT_GAMMA urand0) mdp0).1 =
          subnode as (mkLeaf (N := 2) DEFAULT_GAMMA urand0)) :=
  iterate_frame urand0 (mkLeaf (N := 2) DEFAULT_GAMMA urand0) mdp0 (by decide) (by decide)

/-- C1: after k calls of iterate on a freshly constructed root node,
numOfNodes is exactly 1 + N*k, for every action count N > 0, every
reward source and every random source: each call expands exactly one
leaf into N new leaf nodes, and numOfNodes counts 1 for a leaf and
1 plus the children's counts otherwise. -/
theorem numOfNodes_after_iterateK (N : ℕ) (hN : 0 < N) (gamma : ℚ)
    (r0 dRand : URand) (m : MDP) (k : ℕ) :
    numOfNodes (iterateK dRand k (mkLeaf (N := N) gamma r0) m).1 = 1 + N * k := by
  rw [numOfNodes_iterateK dRand k (mkLeaf gamma r0) m (wfB_mkLeaf gamma r0) hN]
  have h1 : numOfNodes (mkLeaf (N := N) gamma r0) = 1 := rfl
  rw [h1]

theorem numOfNodes_after_iterateK_w :
    numOfNodes (iterateK urand0 3 (mkLeaf (N := 2) DEFAULT_GAMMA urand0) mdp0).1 =
      1 + 2 * 3 :=
  numOfNodes_after_iterateK 2 (by decide) DEFAULT_GAMMA urand0 urand0 mdp0 3

/-- C6: the structural invariant (a leaf has all child slots empty, an
internal node all N slots valid, with no partial expansion) holds for a
freshly constructed node and is preserved by expand, by iterate and by
the copy constructor, which reproduces the tree exactly.  (The C++
operator= cannot be instantiated at all: it names the nonexistent
member vpChildren and ends without returning *this.) -/
theorem wf_invariant_preserved {N : ℕ} (gamma : ℚ) (r0 dRand : URand)
    (t : UCTreeNode N) (m : MDP) (hwf : wfB t = true) (hN : 0 < N) :
    wfB (mkLeaf (N := N) gamma r0) = true ∧
    wfB (expand dRand t) = true ∧
    wfB (iterate dRand t m).1 = true ∧
    copyCtor t = t ∧
    wfB (copyCtor t) = true :=
  ⟨wfB_mkLeaf gamma r0, wfB_expand dRand t hwf, wfB_iterate dRand t m hwf hN,
    copyCtor_eq t, by rw [copyCtor_eq t]; exact hwf⟩

theorem wf_invariant_preserved_w :
    wfB (mkLeaf (N := 2) DEFAULT_GAMMA urand0) = true ∧
    wfB (expand urand0 twoLeafNode) = true ∧
    wfB (iterate urand0 twoLeafNode mdp0).1 = true ∧
    copyCtor twoLeafNode = twoLeafNode ∧
    wfB (copyCtor twoLeafNode) = true :=
  wf_invariant_preserved DEFAULT_GAMMA urand0 urand0 twoLeafNode mdp0 (by decide)
    (by decide)

/-- C3 counterexample: a root constructed with discount factor 1/2,
once expanded, has a child carrying DEFAULT_GAMMA = 9/10 rather than
the root's 1/2: expand builds each child with `new UCTreeNode()`, the
default constructor, so the parent's discount factor is not passed on. -/
theorem expand_child_gamma_cex :
    (mkLeaf (N := 2) (1 / 2) urand0).gamma_i = 1 / 2 ∧
    ((expand urand0 (mkLeaf (N := 2) (1 / 2) urand0)).childD 0).gamma_i = DEFAULT_GAMMA ∧
    ¬((expand urand0 (mkLeaf (N := 2) (1 / 2) urand0)).childD 0).gamma_i = 1 / 2 := by
  refine ⟨rfl, rfl, ?_⟩
  have h2 : ((expand urand0 (mkLeaf (N := 2) (1 / 2) urand0)).childD 0).gamma_i =
      DEFAULT_GAMMA := rfl
  rw [h2]
  norm_num [DEFAULT_GAMMA]

/-- C3 amended: expand gives every new child the default constructor's
values -- discount factor DEFAULT_GAMMA = 0.9 and the
default-constructed random source -- regardless of the expanding
node's own gamma; hence a tree all of whose nodes carry DEFAULT_GAMMA
keeps one uniform discount factor under expand and iterate (the
spec's per-tree-fixed gamma holds exactly for default-gamma roots). -/
theorem expand_children_default_gamma {N : ℕ} (dRand : URand) (t : UCTreeNode N)
    (m : MDP) (hwf : wfB t = true) (hN : 0 < N) :
    (t.isLeaf_i = true → ∀ b, b < N →
      (expand dRand t).vpChildren_i[b]? = some (mkLeaf DEFAULT_GAMMA dRand)) ∧
    (allGammaB DEFAULT_GAMMA t = true →
      allGammaB DEFAULT_GAMMA (expand dRand t) = true) ∧
    (allGammaB DEFAULT_GAMMA t = true →
      allGammaB DEFAULT_GAMMA (iterate dRand t m).1 = true) := by
  refine ⟨?_, allGammaB_expand dRand t, allGammaB_iterate dRand t m hwf hN⟩
  intro hl b hb
  rw [children_expand_leaf dRand t hl]
  simp [List.getElem?_replicate, hb]

theorem expand_children_default_gamma_w :
    (twoLeafNode.isLeaf_i = true → ∀ b, b < 2 →
      (expand urand0 twoLeafNode).vpChildren_i[b]? =
        some (mkLeaf DEFAULT_GAMMA urand0)) ∧
    (allGammaB DEFAULT_GAMMA twoLeafNode = true →
      allGammaB DEFAULT_GAMMA (expand urand0 twoLeafNode) = true) ∧
    (allGammaB DEFAULT_GAMMA twoLeafNode = true →
      allGammaB DEFAULT_GAMMA (iterate urand0 twoLeafNode mdp0).1 = true) :=
  expand_children_default_gamma urand0 twoLeafNode mdp0 (by decide) (by decide)

theorem selectAction_uct_spec_w :
    (twoLeafNode.isLeaf_i = true → selectAction twoLeafNode = none) ∧
    (twoLeafNode.isLeaf_i = false →
      ∃ j, selectAction twoLeafNode =
          some (j, twoLeafNode.setRand (twoLeafNode.rand_i.advance 2)) ∧
        j < 2 ∧
        (∀ i, i < 2 → uctScore twoLeafNode i ≤ uctScore twoLeafNode j) ∧
        (∀ i, j < i → i < 2 → uctScore twoLeafNode i < uctScore twoLeafNode j)) :=
  selectAction_uct_spec twoLeafNode (by decide)
    (by
      intro k hk
      interval_cases k <;>
        norm_num [uctScore, twoLeafNode, UCTreeNode.childD, mkLeaf, URand.peek, urand0,
          EPSILON, dblMax, List.getD, Real.log_one, Real.sqrt_zero])
